import Mathlib

/-!
Verification of the skill-plugin runtime of the `metoolok` modular assistant.

The development shallowly embeds the Python sources:
  * `metoolok/skills/base.py` — `BaseSkill.run`, `_safe_hook`,
    `validate_input`, `check_configuration`, `format_error`;
  * `metoolok/core/brain.py` — `AssistantBrain.detect_intent`,
    `process_input`, `route_to_skill`, `_update_memory`;
  * `metoolok/core/data_manager.py` — `DataManager.save_context`,
    `load_context` (the JSON (de)serialisation performed by the Python
    standard-library `json` module is modelled by an executable printer
    and parser defined below; insignificant whitespace — the `indent=2`
    pretty-printing on the dump side and the whitespace tolerance on the
    load side — is elided on both sides together).

Python-specific behaviours (string truthiness, `or`-coalescing on
integers, `str.strip`, `str.lower`, `str.capitalize`, `in` substring
tests, `list[-10:]` slicing, insertion-ordered dictionaries) are embedded
by the `py`-prefixed helpers, each faithful to CPython semantics on the
ASCII fragment the claims exercise.
-/

namespace Metoolok

/-! ### Python string primitives -/

/-- Characters treated as whitespace by Python `str.strip()` (ASCII fragment). -/
def pyIsSpace (c : Char) : Bool :=
  c = ' ' || c = '\t' || c = '\n' || c = '\r' || c = '\x0b' || c = '\x0c'

/-- Python `str.strip()`: drop whitespace from both ends. -/
def pyStrip (s : String) : String :=
  String.mk ((s.data.dropWhile pyIsSpace).reverse.dropWhile pyIsSpace).reverse

/-- Python `str.lower()` (ASCII fragment). -/
def pyLower (s : String) : String :=
  String.mk (s.data.map Char.toLower)

/-- Python `str.capitalize()`: upper-case the first character, lower-case the rest. -/
def pyCapitalize (s : String) : String :=
  match s.data with
  | [] => ""
  | c :: cs => String.mk (Char.toUpper c :: cs.map Char.toLower)

/-- Does `text` start with `kw`? -/
def charsStartWith : List Char → List Char → Bool
  | p :: ps, c :: cs => p = c && charsStartWith ps cs
  | kw, _ => kw.isEmpty

/-- Is `kw` a contiguous substring of `text`? -/
def charsContain (kw : List Char) : List Char → Bool
  | [] => charsStartWith kw []
  | c :: cs => charsStartWith kw (c :: cs) || charsContain kw cs

/-- Python `kw in text`: substring containment. -/
def pyIn (kw text : String) : Bool :=
  charsContain kw.data text.data

/-- Python `timeout or self.timeout` for `timeout : Optional[int]`:
`None` and `0` are falsy, any non-zero integer is truthy. -/
def pyOrInt (o : Option Int) (dflt : Int) : Int :=
  match o with
  | none => dflt
  | some t => if t = 0 then dflt else t

/-- Python `xs[-n:]`: the last `n` elements (all of them when `xs` is shorter). -/
def pyLastN (n : Nat) (xs : List α) : List α :=
  xs.drop (xs.length - n)

/-- First-match lookup in an insertion-ordered dictionary (`dict.get`). -/
def pyDictGet (xs : List (String × α)) (key : String) : Option α :=
  match xs with
  | [] => none
  | (k, v) :: rest => if k = key then some v else pyDictGet rest key

/-! ### `BaseSkill` (skills/base.py) -/

/-- Which lifecycle hook a `_safe_hook` call targets. -/
inductive HookKind where
  | onStart
  | onFinish
  | onError
deriving DecidableEq, Repr

/-- Python-side `__name__` of each hook, used in the swallowed-failure warning. -/
def HookKind.pyName : HookKind → String
  | .onStart => "on_start"
  | .onFinish => "on_finish"
  | .onError => "on_error"

/-- The error object passed to the `on_error` hook. -/
inductive ErrArg where
  | timeoutError (msg : String)
  | execError (msg : String)
deriving DecidableEq, Repr

/-- Observable events of one `BaseSkill.run` call: `safeHookCalled` records
that `_safe_hook` was entered for the given hook (with the error argument,
when the hook is `on_error`); `hookInvoked` records that the hook body was
actually awaited; `executeCalled` records that `asyncio.wait_for(self.execute ...)`
was started. -/
inductive Event where
  | executeCalled
  | safeHookCalled (k : HookKind) (err : Option ErrArg)
  | hookInvoked (k : HookKind)
deriving DecidableEq, Repr

/-- Behaviour of one (possibly overridden) lifecycle hook:
`isCoroutineFn` is `asyncio.iscoroutinefunction(hook)` (the default hooks
defined on `BaseSkill` are `async def`, hence `true`); `fails` is the
message of the exception the hook body raises, or `none` when it returns
normally. -/
structure HookSpec where
  isCoroutineFn : Bool := true
  fails : Option String := none
deriving DecidableEq, Repr

/-- Paths through `BaseSkill.run`: the two early returns and the three
arms of the `try`/`except` block. -/
inductive RunPath where
  | invalidInput
  | configFailed
  | success
  | timedOut
  | execError
deriving DecidableEq, Repr

/-- Default `BaseSkill.validate_input`: `bool(args and args.strip())`. -/
def defaultValidateInput (args : String) : Bool :=
  if args = "" then false else pyStrip args ≠ ""

/-- Behavioural description of one concrete skill instance, as observed by
`BaseSkill.run` and the Brain. `execDuration` abstracts the wall-clock time
`execute(args)` would take (compared against the `asyncio.wait_for` deadline),
and `execBehavior` the value it returns (`.ok`) or the exception it raises
(`.error`) when given time to finish. -/
structure Skill where
  name : String
  keywords : List String := []
  timeout : Int := 15
  validate : String → Bool := defaultValidateInput
  checkConfig : Bool := true
  execDuration : String → Int := fun _ => 0
  execBehavior : String → Except String String
  onStart : HookSpec := {}
  onFinish : HookSpec := {}
  onError : HookSpec := {}

/-- The hook spec a given `HookKind` designates on a skill. -/
def Skill.hookSpec (s : Skill) : HookKind → HookSpec
  | .onStart => s.onStart
  | .onFinish => s.onFinish
  | .onError => s.onError

/-- `BaseSkill.format_error`: standardized error UI output. -/
def formatError (name msg : String) : String :=
  "❌ **" ++ pyCapitalize name ++ " Error:** " ++ msg

/-- Timeout message built on the `asyncio.TimeoutError` path of `run`. -/
def timeoutMsg (name : String) (deadline : Int) : String :=
  "⏱️ Timeout: '" ++ name ++ "' exceeded " ++ toString deadline ++ "s limit."

/-- `BaseSkill._safe_hook`: awaits the hook only when it is a coroutine
function; an exception from the hook body is logged as a warning and
swallowed. Returns the recorded events and the warning log entries. -/
def safeHook (h : HookSpec) (k : HookKind) (err : Option ErrArg) :
    List Event × List String :=
  if h.isCoroutineFn then
    match h.fails with
    | some e => ([.safeHookCalled k err, .hookInvoked k],
                 ["⚠️ Hook '" ++ k.pyName ++ "' failed: " ++ e])
    | none => ([.safeHookCalled k err, .hookInvoked k], [])
  else
    ([.safeHookCalled k err], [])

/-- Result of one `BaseSkill.run` call: the returned string, the skill's
`execution_count` after the call, the control-flow path taken, the
`asyncio.wait_for` deadline (`none` on the early-return paths), the event
trace and the hook-failure warnings. -/
structure RunResult where
  output : String
  count : Nat
  path : RunPath
  deadline : Option Int
  events : List Event
  warnings : List String
deriving DecidableEq, Repr

/-- `BaseSkill.run`: validation → configuration check → `on_start` hook →
timeout-bounded execution → (`on_finish` + metrics | timeout handler |
exception handler). `count` is the skill's `execution_count` before the
call; `timeout` is the optional per-call override. -/
def Skill.run (s : Skill) (count : Nat) (args : String) (timeout : Option Int) :
    RunResult :=
  if s.validate args = false then
    { output := formatError s.name "Input is empty or invalid."
      count := count, path := .invalidInput, deadline := none
      events := [], warnings := [] }
  else if s.checkConfig = false then
    { output := formatError s.name "Configuration check failed (Missing API Keys or Setup)."
      count := count, path := .configFailed, deadline := none
      events := [], warnings := [] }
  else
    let actualTimeout := pyOrInt timeout s.timeout
    let h1 := safeHook s.onStart .onStart none
    if s.execDuration args > actualTimeout then
      let msg := timeoutMsg s.name actualTimeout
      let h3 := safeHook s.onError .onError (some (.timeoutError msg))
      { output := formatError s.name msg
        count := count, path := .timedOut, deadline := some actualTimeout
        events := h1.1 ++ [.executeCalled] ++ h3.1
        warnings := h1.2 ++ h3.2 }
    else
      match s.execBehavior args with
      | .ok result =>
        let h2 := safeHook s.onFinish .onFinish none
        { output := result
          count := count + 1, path := .success, deadline := some actualTimeout
          events := h1.1 ++ [.executeCalled] ++ h2.1
          warnings := h1.2 ++ h2.2 }
      | .error e =>
        let h3 := safeHook s.onError .onError (some (.execError e))
        { output := formatError s.name ("An unexpected error occurred: " ++ e)
          count := count, path := .execError, deadline := some actualTimeout
          events := h1.1 ++ [.executeCalled] ++ h3.1
          warnings := h1.2 ++ h3.2 }

/-! ### JSON documents (the persisted context, core/data_manager.py)

`ContextMemory` is a Python dict of string keys to JSON-serializable
values; it is embedded as the insertion-ordered association object
`JsonObj`. Numbers are modelled as arbitrary-precision integers
(floating point is out of scope of the embedding). -/

mutual
inductive Json where
  | null : Json
  | bool : Bool → Json
  | int : Int → Json
  | str : String → Json
  | arr : JsonArr → Json
  | obj : JsonObj → Json
inductive JsonArr where
  | nil : JsonArr
  | cons : Json → JsonArr → JsonArr
inductive JsonObj where
  | nil : JsonObj
  | cons : String → Json → JsonObj → JsonObj
end

/-- Python dict lookup `d[k]` / `d.get(k)` on a `JsonObj`. -/
def objGet : JsonObj → String → Option Json
  | .nil, _ => none
  | .cons k v t, key => if k = key then some v else objGet t key

/-- Python `d.get(k, default)`. -/
def objGetD (m : JsonObj) (key : String) (dflt : Json) : Json :=
  (objGet m key).getD dflt

/-- Python dict assignment `d[k] = v`: update in place when the key
exists (keeping its position), append at the end otherwise. -/
def objSet : JsonObj → String → Json → JsonObj
  | .nil, key, val => .cons key val .nil
  | .cons k v t, key, val =>
    if k = key then .cons k val t else .cons k v (objSet t key val)

/-- A `JsonArr` as a Lean list. -/
def jarrToList : JsonArr → List Json
  | .nil => []
  | .cons v t => v :: jarrToList t

/-- A Lean list as a `JsonArr`. -/
def jarrOfList : List Json → JsonArr
  | [] => .nil
  | v :: t => .cons v (jarrOfList t)

/-- Python `list.append` on a `JsonArr`. -/
def jarrAppend : JsonArr → Json → JsonArr
  | .nil, v => .cons v .nil
  | .cons h t, v => .cons h (jarrAppend t v)

/-- Length of a `JsonArr`. -/
def jarrLen : JsonArr → Nat
  | .nil => 0
  | .cons _ t => 1 + jarrLen t

/-- Python `xs[-n:]` on a `JsonArr`. -/
def jarrLastN (n : Nat) (a : JsonArr) : JsonArr :=
  jarrOfList (pyLastN n (jarrToList a))

/-! ### The Brain (core/brain.py) -/

/-- The `{"user": ..., "assistant": ...}` entry `_update_memory` appends
to `conversation_history`. -/
def turnOf (userInput result : String) : Json :=
  .obj (.cons "user" (.str userInput) (.cons "assistant" (.str result) .nil))

/-- `AssistantBrain._update_memory` up to the `save_context` call: sets
`last_action` and `last_result`, appends the turn to
`conversation_history` and truncates it to the last 10 entries. When the
stored `conversation_history` is not a list, `history.append` raises
`AttributeError`; the second component then carries the exception and the
first the memory as mutated so far (`last_action`/`last_result` are
already written at that point). -/
def updateMemory (mem : JsonObj) (skillName userInput result : String) :
    JsonObj × Option String :=
  let m1 := objSet mem "last_action" (.str skillName)
  let m2 := objSet m1 "last_result" (.str result)
  match objGetD m2 "conversation_history" (.arr .nil) with
  | .arr h =>
    let h2 := jarrAppend h (turnOf userInput result)
    (objSet m2 "conversation_history" (.arr (jarrLastN 10 h2)), none)
  | _ => (m2, some "AttributeError")

/-- The `conversation_history` entry of a memory, as a list of turns
(empty when absent or not a list). -/
def historyList (mem : JsonObj) : List Json :=
  match objGet mem "conversation_history" with
  | some (.arr h) => jarrToList h
  | _ => []

/-- State of the Brain: the insertion-ordered skill dictionary (each with
its current `execution_count`), the shared context memory, and the content
of the context file maintained by `DataManager.save_context` (`none` when
the file does not exist). -/
structure BrainState where
  skills : List (String × Skill × Nat)
  memory : JsonObj
  file : Option (List Char) := none

/-- `AssistantBrain._build_intent_map`: skill name to keyword list, in
registration order (every modelled skill has a `keywords` attribute). -/
def intentMap (st : BrainState) : List (String × List String) :=
  st.skills.map (fun e => (e.1, e.2.1.keywords))

/-- `AssistantBrain.detect_intent`: scan the intent map in registration
order, return the first skill one of whose keywords occurs in the text. -/
def detectIntent (m : List (String × List String)) (text : String) : Option String :=
  match m with
  | [] => none
  | (skillName, kws) :: rest =>
    if kws.any (fun kw => pyIn kw text) then some skillName
    else detectIntent rest text

/-! ### JSON serialisation (`json.dump`, modelled)

Executable model of the serialisation `DataManager.save_context` delegates
to the Python `json` module (`ensure_ascii=False`; the insignificant
whitespace inserted by `indent=2` is elided). Characters are escaped the
way CPython's `json.dumps` escapes them: `"`, `\`, the short escapes
`\n \t \r \b \f`, and `\u00XX` for the remaining control characters. -/

/-- Hexadecimal digit character (lower case, as emitted by CPython). -/
def hexChar (n : Nat) : Char :=
  Char.ofNat (if n < 10 then 48 + n else 87 + n)

/-- Escape one character of a JSON string. -/
def escapeChar (c : Char) : List Char :=
  if c = '"' then ['\\', '"']
  else if c = '\\' then ['\\', '\\']
  else if c = '\n' then ['\\', 'n']
  else if c = '\t' then ['\\', 't']
  else if c = '\r' then ['\\', 'r']
  else if c = '\x08' then ['\\', 'b']
  else if c = '\x0c' then ['\\', 'f']
  else if c.toNat < 32 then
    '\\' :: 'u' :: '0' :: '0' :: [hexChar (c.toNat / 16), hexChar (c.toNat % 16)]
  else [c]

/-- Escape the body of a JSON string. -/
def escapeStr : List Char → List Char
  | [] => []
  | c :: cs => escapeChar c ++ escapeStr cs

/-- Print a JSON string literal (quotes included). -/
def printStr (s : String) : List Char :=
  '"' :: escapeStr s.data ++ ['"']

/-- Decimal digit character. -/
def digitChar (d : Nat) : Char :=
  Char.ofNat (48 + d)

/-- Print a natural number in decimal (big-endian, no leading zeros). -/
def printNat (n : Nat) : List Char :=
  if n = 0 then ['0'] else ((Nat.digits 10 n).map digitChar).reverse

/-- Print an integer the way Python `str(int)` does. -/
def printInt (i : Int) : List Char :=
  if i < 0 then '-' :: printNat i.natAbs else printNat i.toNat

mutual
def printJson : Json → List Char
  | .null => "null".data
  | .bool true => "true".data
  | .bool false => "false".data
  | .int i => printInt i
  | .str s => printStr s
  | .arr a => '[' :: printArrCore a ++ [']']
  | .obj o => '{' :: printObjCore o ++ ['}']
def printArrCore : JsonArr → List Char
  | .nil => []
  | .cons v t => printJson v ++ printArrTail t
def printArrTail : JsonArr → List Char
  | .nil => []
  | .cons v t => ',' :: printJson v ++ printArrTail t
def printObjCore : JsonObj → List Char
  | .nil => []
  | .cons k v t => printStr k ++ ':' :: printJson v ++ printObjTail t
def printObjTail : JsonObj → List Char
  | .nil => []
  | .cons k v t => ',' :: printStr k ++ ':' :: printJson v ++ printObjTail t
end

/-! ### `route_to_skill` and `process_input` (core/brain.py) -/

/-- The fallback answer when no intent matches. -/
def helpMessage (st : BrainState) : String :=
  "🤔 I didn't understand that. I can currently help with: **" ++
    String.intercalate ", " (st.skills.map (fun e => pyCapitalize e.1)) ++ "**"

/-- The defensive answer when the detected intent is missing from the skill map. -/
def systemErrorMsg (intent : String) : String :=
  "❌ System Error: Intent '" ++ intent ++ "' detected, but module is not loaded."

/-- The answer produced by the `except` clause of `route_to_skill`. -/
def internalErrorMsg (skillName : String) : String :=
  "❌ An internal error occurred while processing via " ++ skillName ++ "."

/-- Replace the stored `execution_count` of the skill registered under `key`. -/
def setSkillCount : List (String × Skill × Nat) → String → Nat → List (String × Skill × Nat)
  | [], _, _ => []
  | (k, s, c) :: rest, key, newCount =>
    if k = key then (k, s, newCount) :: rest
    else (k, s, c) :: setSkillCount rest key newCount

/-- `AssistantBrain.route_to_skill` for a skill exposing `run` (every
`BaseSkill` subclass does, so the `hasattr(skill, 'run')` branch is the
one taken): run the skill, then `_update_memory`; an exception escaping
`_update_memory` is caught and turned into the internal-error string
(`save_context` runs only when `_update_memory` completes). -/
def routeToSkill (st : BrainState) (key : String) (skill : Skill) (count : Nat)
    (args : String) : String × BrainState :=
  let r := skill.run count args none
  let upd := updateMemory st.memory skill.name args r.output
  let skills2 := setSkillCount st.skills key r.count
  match upd.2 with
  | none =>
    (r.output,
     { skills := skills2, memory := upd.1
       file := some (printJson (.obj upd.1)) })
  | some _ =>
    (internalErrorMsg skill.name,
     { skills := skills2, memory := upd.1, file := st.file })

/-- `AssistantBrain.process_input`: lower-case the text, detect the
intent, fall back to the help message, defensively check the skill map,
and route to the matched skill (which receives the original text). -/
def processInput (st : BrainState) (text : String) : String × BrainState :=
  match detectIntent (intentMap st) (pyLower text) with
  | none => (helpMessage st, st)
  | some intent =>
    match pyDictGet st.skills intent with
    | none => (systemErrorMsg intent, st)
    | some (skill, count) => routeToSkill st intent skill count text

/-! ### JSON parsing (`json.load`, modelled)

Executable recursive-descent model of the deserialisation
`DataManager.load_context` delegates to the Python `json` module, on the
same whitespace-free fragment the printer above emits. Nesting recursion
is fuelled; `parseJsonText` supplies fuel proportional to the input
length, which the round-trip proof shows is always sufficient for
printed documents. -/

/-- Value of a hexadecimal digit character. -/
def hexVal (c : Char) : Option Nat :=
  if 48 ≤ c.toNat ∧ c.toNat ≤ 57 then some (c.toNat - 48)
  else if 97 ≤ c.toNat ∧ c.toNat ≤ 102 then some (c.toNat - 87)
  else if 65 ≤ c.toNat ∧ c.toNat ≤ 70 then some (c.toNat - 55)
  else none

/-- Prepend a character to the string being accumulated by `parseStrBody`. -/
def consMap (c : Char) (o : Option (List Char × List Char)) :
    Option (List Char × List Char) :=
  o.map (fun p => (c :: p.1, p.2))

/-- Parse the body of a JSON string literal (after the opening quote),
returning the unescaped characters and the remainder after the closing
quote. -/
def parseStrBody : List Char → Option (List Char × List Char)
  | [] => none
  | c :: cs =>
    if c = '"' then some ([], cs)
    else if c = '\\' then
      match cs with
      | [] => none
      | e :: cs2 =>
        if e = '"' then consMap '"' (parseStrBody cs2)
        else if e = '\\' then consMap '\\' (parseStrBody cs2)
        else if e = '/' then consMap '/' (parseStrBody cs2)
        else if e = 'n' then consMap '\n' (parseStrBody cs2)
        else if e = 't' then consMap '\t' (parseStrBody cs2)
        else if e = 'r' then consMap '\r' (parseStrBody cs2)
        else if e = 'b' then consMap '\x08' (parseStrBody cs2)
        else if e = 'f' then consMap '\x0c' (parseStrBody cs2)
        else if e = 'u' then
          match cs2 with
          | h1 :: h2 :: h3 :: h4 :: cs3 =>
            match hexVal h1, hexVal h2, hexVal h3, hexVal h4 with
            | some a, some b, some c2, some d =>
              consMap (Char.ofNat (4096 * a + 256 * b + 16 * c2 + d)) (parseStrBody cs3)
            | _, _, _, _ => none
          | _ => none
        else none
    else consMap c (parseStrBody cs)
termination_by l => l.length
decreasing_by all_goals (simp_all; try omega)

/-- Is `c` a decimal digit? -/
def isDigitChar (c : Char) : Bool :=
  decide (48 ≤ c.toNat) && decide (c.toNat ≤ 57)

/-- Greedily consume decimal digits, accumulating their value. -/
def parseNatAcc : Nat → List Char → Nat × List Char
  | acc, [] => (acc, [])
  | acc, c :: cs =>
    if isDigitChar c then parseNatAcc (acc * 10 + (c.toNat - 48)) cs
    else (acc, c :: cs)

/-- Check that the input starts with the given literal characters and
drop them. -/
def dropLit : List Char → List Char → Option (List Char)
  | [], cs => some cs
  | _ :: _, [] => none
  | p :: ps, c :: cs => if c = p then dropLit ps cs else none

/-- Parse a JSON integer (optional minus sign, one or more digits). -/
def parseIntChars : List Char → Option (Int × List Char)
  | [] => none
  | c :: cs =>
    if c = '-' then
      match cs with
      | [] => none
      | d :: ds =>
        if isDigitChar d then
          let p := parseNatAcc 0 (d :: ds)
          some (-(Int.ofNat p.1), p.2)
        else none
    else if isDigitChar c then
      let p := parseNatAcc 0 (c :: cs)
      some (Int.ofNat p.1, p.2)
    else none

mutual
def parseVal : Nat → List Char → Option (Json × List Char)
  | 0, _ => none
  | _ + 1, [] => none
  | fuel + 1, c :: cs =>
    if c = 'n' then (dropLit ['u', 'l', 'l'] cs).map (fun r => (.null, r))
    else if c = 't' then (dropLit ['r', 'u', 'e'] cs).map (fun r => (.bool true, r))
    else if c = 'f' then (dropLit ['a', 'l', 's', 'e'] cs).map (fun r => (.bool false, r))
    else if c = '"' then
      (parseStrBody cs).map (fun p => (.str (String.mk p.1), p.2))
    else if c = '[' then
      match cs with
      | [] => none
      | d :: ds =>
        if d = ']' then some (.arr .nil, ds)
        else (parseArrElems fuel (d :: ds)).map (fun p => (.arr p.1, p.2))
    else if c = '{' then
      match cs with
      | [] => none
      | d :: ds =>
        if d = '}' then some (.obj .nil, ds)
        else (parseObjFields fuel (d :: ds)).map (fun p => (.obj p.1, p.2))
    else (parseIntChars (c :: cs)).map (fun p => (.int p.1, p.2))
def parseArrElems : Nat → List Char → Option (JsonArr × List Char)
  | 0, _ => none
  | fuel + 1, cs =>
    match parseVal fuel cs with
    | none => none
    | some (v, r) =>
      match r with
      | [] => none
      | d :: ds =>
        if d = ',' then (parseArrElems fuel ds).map (fun p => (.cons v p.1, p.2))
        else if d = ']' then some (.cons v .nil, ds)
        else none
def parseObjFields : Nat → List Char → Option (JsonObj × List Char)
  | 0, _ => none
  | fuel + 1, cs =>
    match cs with
    | [] => none
    | c :: cs2 =>
      if c = '"' then
        match parseStrBody cs2 with
        | none => none
        | some (k, r) =>
          match r with
          | [] => none
          | d :: ds =>
            if d = ':' then
              match parseVal fuel ds with
              | none => none
              | some (v, r2) =>
                match r2 with
                | [] => none
                | e :: es =>
                  if e = ',' then
                    (parseObjFields fuel es).map
                      (fun p => (.cons (String.mk k) v p.1, p.2))
                  else if e = '}' then some (.cons (String.mk k) v .nil, es)
                  else none
            else none
      else none
end

/-- Parse a complete JSON document: one value consuming the whole input
(`json.load` rejects trailing garbage). -/
def parseJsonText (cs : List Char) : Option Json :=
  match parseVal (cs.length + 1) cs with
  | some (v, []) => some v
  | _ => none

/-! ### `DataManager` persistence (core/data_manager.py) -/

/-- State of the persistent store: the content of `context.json`
(`none` when the file does not exist). -/
structure DMState where
  file : Option (List Char) := none

/-- `DataManager.save_context`: serialise the whole context memory to the
context file. -/
def saveContext (mem : JsonObj) (_st : DMState) : DMState :=
  { file := some (printJson (.obj mem)) }

/-- `DataManager.load_context`: return the parsed document when the
context file exists and parses, and the empty memory otherwise (missing
file, or `json.JSONDecodeError` on a corrupted one). -/
def loadContext (st : DMState) : Json :=
  match st.file with
  | none => .obj .nil
  | some cs =>
    match parseJsonText cs with
    | some v => v
    | none => .obj .nil

/-! ### Concrete skills used to instantiate the theorems -/

/-- A skill that returns its input unchanged (cf. the spec's example scenario). -/
def echoSkill : Skill :=
  { name := "echo", keywords := ["echo"]
    execBehavior := fun a => .ok a, execDuration := fun _ => 1 }

/-- A skill whose `execute` raises. -/
def boomSkill : Skill :=
  { name := "fail", keywords := ["echo", "boom"]
    execBehavior := fun _ => .error "Boom", execDuration := fun _ => 1 }

/-- A skill whose `execute` runs for 100 abstract seconds. -/
def slowSkill : Skill :=
  { name := "slow", keywords := ["slow"]
    execBehavior := fun a => .ok a, execDuration := fun _ => 100 }

/-- A skill that overrides `on_finish` with a plain synchronous function. -/
def syncHookSkill : Skill :=
  { name := "synchook", keywords := ["sync"]
    execBehavior := fun a => .ok a, execDuration := fun _ => 1
    onFinish := { isCoroutineFn := false } }

/-- A skill whose `on_start` hook raises. -/
def hookFailSkill : Skill :=
  { name := "hookfail", keywords := ["hook"]
    execBehavior := fun a => .ok a, execDuration := fun _ => 1
    onStart := { fails := some "hook broke" } }

/-! ### Lemmas about `_safe_hook` -/

theorem hookInvoked_mem_safeHook (h : HookSpec) (k k2 : HookKind) (err : Option ErrArg) :
    Event.hookInvoked k ∈ (safeHook h k2 err).1 ↔ (k = k2 ∧ h.isCoroutineFn = true) := by
  unfold safeHook
  split
  next hco => cases hf : h.fails <;> simp [hco]
  next hco => simp at hco; simp [hco]

theorem safeHookCalled_mem_safeHook (h : HookSpec) (k : HookKind) (err : Option ErrArg) :
    Event.safeHookCalled k err ∈ (safeHook h k err).1 := by
  unfold safeHook
  split
  · cases h.fails <;> simp
  · simp

theorem safeHook_warning (h : HookSpec) (k : HookKind) (err : Option ErrArg) (m : String)
    (hf : h.fails = some m) (hco : h.isCoroutineFn = true) :
    ("⚠️ Hook '" ++ k.pyName ++ "' failed: " ++ m) ∈ (safeHook h k err).2 := by
  unfold safeHook
  simp [hco, hf]

/-! ### Equations for the five paths of `BaseSkill.run` -/

theorem run_eq_invalid (s : Skill) (count : Nat) (args : String) (o : Option Int)
    (hv : s.validate args = false) :
    Skill.run s count args o =
      { output := formatError s.name "Input is empty or invalid."
        count := count, path := .invalidInput, deadline := none
        events := [], warnings := [] } := by
  unfold Skill.run
  rw [if_pos hv]

theorem run_eq_config (s : Skill) (count : Nat) (args : String) (o : Option Int)
    (hv : s.validate args = true) (hc : s.checkConfig = false) :
    Skill.run s count args o =
      { output := formatError s.name "Configuration check failed (Missing API Keys or Setup)."
        count := count, path := .configFailed, deadline := none
        events := [], warnings := [] } := by
  unfold Skill.run
  rw [if_neg (by simp [hv]), if_pos hc]

theorem run_eq_timeout (s : Skill) (count : Nat) (args : String) (o : Option Int)
    (hv : s.validate args = true) (hc : s.checkConfig = true)
    (ht : s.execDuration args > pyOrInt o s.timeout) :
    Skill.run s count args o =
      { output := formatError s.name (timeoutMsg s.name (pyOrInt o s.timeout))
        count := count, path := .timedOut, deadline := some (pyOrInt o s.timeout)
        events := (safeHook s.onStart .onStart none).1 ++ [.executeCalled] ++
          (safeHook s.onError .onError
            (some (.timeoutError (timeoutMsg s.name (pyOrInt o s.timeout))))).1
        warnings := (safeHook s.onStart .onStart none).2 ++
          (safeHook s.onError .onError
            (some (.timeoutError (timeoutMsg s.name (pyOrInt o s.timeout))))).2 } := by
  unfold Skill.run
  rw [if_neg (by simp [hv]), if_neg (by simp [hc])]
  simp only [if_pos ht]

theorem run_eq_success (s : Skill) (count : Nat) (args : String) (o : Option Int)
    (result : String)
    (hv : s.validate args = true) (hc : s.checkConfig = true)
    (ht : ¬ s.execDuration args > pyOrInt o s.timeout)
    (hb : s.execBehavior args = .ok result) :
    Skill.run s count args o =
      { output := result
        count := count + 1, path := .success, deadline := some (pyOrInt o s.timeout)
        events := (safeHook s.onStart .onStart none).1 ++ [.executeCalled] ++
          (safeHook s.onFinish .onFinish none).1
        warnings := (safeHook s.onStart .onStart none).2 ++
          (safeHook s.onFinish .onFinish none).2 } := by
  unfold Skill.run
  rw [if_neg (by simp [hv]), if_neg (by simp [hc])]
  simp only [if_neg ht, hb]

theorem run_eq_error (s : Skill) (count : Nat) (args : String) (o : Option Int)
    (e : String)
    (hv : s.validate args = true) (hc : s.checkConfig = true)
    (ht : ¬ s.execDuration args > pyOrInt o s.timeout)
    (hb : s.execBehavior args = .error e) :
    Skill.run s count args o =
      { output := formatError s.name ("An unexpected error occurred: " ++ e)
        count := count, path := .execError, deadline := some (pyOrInt o s.timeout)
        events := (safeHook s.onStart .onStart none).1 ++ [.executeCalled] ++
          (safeHook s.onError .onError (some (.execError e))).1
        warnings := (safeHook s.onStart .onStart none).2 ++
          (safeHook s.onError .onError (some (.execError e))).2 } := by
  unfold Skill.run
  rw [if_neg (by simp [hv]), if_neg (by simp [hc])]
  simp only [if_neg ht, hb]

/-! ### Claim theorems about `BaseSkill.run` -/

/-- Claim C1: a `run` call increments the skill's `execution_count` by
exactly 1 when it completes via the success path and by 0 on every other
path (validation failure, configuration failure, timeout, exception from
`execute`), and exactly one of the five paths executes per call. -/
theorem run_increment_iff_success (s : Skill) (count : Nat) (args : String)
    (o : Option Int) :
    ((Skill.run s count args o).path = RunPath.success ↔
      (Skill.run s count args o).count = count + 1) ∧
    ((Skill.run s count args o).path ≠ RunPath.success →
      (Skill.run s count args o).count = count) ∧
    ((Skill.run s count args o).path = RunPath.invalidInput ∨
     (Skill.run s count args o).path = RunPath.configFailed ∨
     (Skill.run s count args o).path = RunPath.success ∨
     (Skill.run s count args o).path = RunPath.timedOut ∨
     (Skill.run s count args o).path = RunPath.execError) := by
  by_cases hv : s.validate args = false
  · rw [run_eq_invalid s count args o hv]; simp
  · rw [Bool.not_eq_false] at hv
    by_cases hc : s.checkConfig = false
    · rw [run_eq_config s count args o hv hc]; simp
    · rw [Bool.not_eq_false] at hc
      by_cases ht : s.execDuration args > pyOrInt o s.timeout
      · rw [run_eq_timeout s count args o hv hc ht]; simp
      · cases hb : s.execBehavior args with
        | ok result => rw [run_eq_success s count args o result hv hc ht hb]; simp
        | error e => rw [run_eq_error s count args o e hv hc ht hb]; simp

/-- Witness for C1 at a concrete success run and a concrete failing run. -/
theorem run_increment_iff_success_instance :
    ((Skill.run echoSkill 0 "hi" none).path = RunPath.success ↔
      (Skill.run echoSkill 0 "hi" none).count = 0 + 1) ∧
    ((Skill.run echoSkill 0 "hi" none).path ≠ RunPath.success →
      (Skill.run echoSkill 0 "hi" none).count = 0) ∧
    ((Skill.run echoSkill 0 "hi" none).path = RunPath.invalidInput ∨
     (Skill.run echoSkill 0 "hi" none).path = RunPath.configFailed ∨
     (Skill.run echoSkill 0 "hi" none).path = RunPath.success ∨
     (Skill.run echoSkill 0 "hi" none).path = RunPath.timedOut ∨
     (Skill.run echoSkill 0 "hi" none).path = RunPath.execError) :=
  run_increment_iff_success echoSkill 0 "hi" none

/-- Claim C5: when `execute` exceeds the effective deadline, `run` takes
the timeout path: `_safe_hook` is entered for `on_error` with a timeout
error (and the hook body is awaited whenever `on_error` is a coroutine
function, as the default is), the formatted timeout message is returned,
and `execution_count` is not incremented. -/
theorem run_timeout_path (s : Skill) (count : Nat) (args : String) (o : Option Int)
    (hv : s.validate args = true) (hc : s.checkConfig = true)
    (ht : s.execDuration args > pyOrInt o s.timeout) :
    (Skill.run s count args o).path = RunPath.timedOut ∧
    (Skill.run s count args o).output =
      formatError s.name (timeoutMsg s.name (pyOrInt o s.timeout)) ∧
    (Skill.run s count args o).count = count ∧
    Event.safeHookCalled .onError
        (some (.timeoutError (timeoutMsg s.name (pyOrInt o s.timeout)))) ∈
      (Skill.run s count args o).events ∧
    (s.onError.isCoroutineFn = true →
      Event.hookInvoked .onError ∈ (Skill.run s count args o).events) := by
  rw [run_eq_timeout s count args o hv hc ht]
  refine ⟨rfl, rfl, rfl, ?_, ?_⟩
  · simp [safeHookCalled_mem_safeHook]
  · intro hco
    have hm := (hookInvoked_mem_safeHook s.onError .onError .onError
      (some (.timeoutError (timeoutMsg s.name (pyOrInt o s.timeout))))).2 ⟨rfl, hco⟩
    simp only [List.mem_append]
    exact Or.inr hm

/-- Witness for C5: the slow skill times out against its default 15s limit. -/
theorem run_timeout_path_instance :
    (Skill.run slowSkill 0 "take it slow" none).path = RunPath.timedOut ∧
    (Skill.run slowSkill 0 "take it slow" none).output =
      formatError slowSkill.name (timeoutMsg slowSkill.name (pyOrInt none slowSkill.timeout)) ∧
    (Skill.run slowSkill 0 "take it slow" none).count = 0 ∧
    Event.safeHookCalled .onError
        (some (.timeoutError (timeoutMsg slowSkill.name (pyOrInt none slowSkill.timeout)))) ∈
      (Skill.run slowSkill 0 "take it slow" none).events ∧
    (slowSkill.onError.isCoroutineFn = true →
      Event.hookInvoked .onError ∈ (Skill.run slowSkill 0 "take it slow" none).events) :=
  run_timeout_path slowSkill 0 "take it slow" none (by decide) (by decide) (by decide)

/-- Claim C6, counterexample: `run` computes its deadline with Python
`or`-coalescing (`timeout or self.timeout`), not null-coalescing. With an
explicit override of `0` (non-null) the claim requires a deadline of `0`,
but the code falls back to the skill's 15-second default: the run
completes successfully under a 15s deadline instead of timing out under a
0s one. -/
theorem deadline_zero_override_not_honored :
    (Skill.run echoSkill 0 "hi" (some 0)).deadline = some 15 ∧
    (Skill.run echoSkill 0 "hi" (some 0)).path = RunPath.success ∧
    (15 : Int) ≠ 0 := by
  refine ⟨?_, ?_, by decide⟩ <;> rfl

/-- Claim C6 (amended): the execution deadline is
`timeoutOverride or skill.timeoutSeconds` under Python truthiness: a
non-null, non-zero override is used as supplied, while a null override
or an override of `0` falls back to `skill.timeoutSeconds`. -/
theorem run_deadline_falsy_coalescing (s : Skill) (count : Nat) (args : String)
    (o : Option Int) (hv : s.validate args = true) (hc : s.checkConfig = true) :
    (Skill.run s count args o).deadline = some (pyOrInt o s.timeout) ∧
    (∀ t : Int, t ≠ 0 → pyOrInt (some t) s.timeout = t) ∧
    pyOrInt none s.timeout = s.timeout ∧
    pyOrInt (some 0) s.timeout = s.timeout := by
  refine ⟨?_, fun t ht => by simp [pyOrInt, ht], rfl, rfl⟩
  by_cases ht : s.execDuration args > pyOrInt o s.timeout
  · rw [run_eq_timeout s count args o hv hc ht]
  · cases hb : s.execBehavior args with
    | ok result => rw [run_eq_success s count args o result hv hc ht hb]
    | error e => rw [run_eq_error s count args o e hv hc ht hb]

/-- Witness for the amended C6 at a concrete run. -/
theorem run_deadline_falsy_coalescing_instance :
    (Skill.run echoSkill 0 "hi" (some 7)).deadline = some (pyOrInt (some 7) echoSkill.timeout) ∧
    (∀ t : Int, t ≠ 0 → pyOrInt (some t) echoSkill.timeout = t) ∧
    pyOrInt none echoSkill.timeout = echoSkill.timeout ∧
    pyOrInt (some 0) echoSkill.timeout = echoSkill.timeout :=
  run_deadline_falsy_coalescing echoSkill 0 "hi" (some 7) (by decide) (by decide)

/-- Claim C7: when `validate_input` rejects the input, `run` returns the
formatted validation error with no further side effects — no lifecycle
hook is entered, `execute` is not started, no warning is logged and
`execution_count` is unchanged; and the default validator rejects exactly
the empty or whitespace-only inputs. -/
theorem invalid_input_no_side_effects :
    (∀ (s : Skill) (count : Nat) (args : String) (o : Option Int),
      s.validate args = false →
      (Skill.run s count args o).output =
          formatError s.name "Input is empty or invalid." ∧
        (Skill.run s count args o).count = count ∧
        (Skill.run s count args o).events = [] ∧
        (Skill.run s count args o).warnings = []) ∧
    (∀ args : String, defaultValidateInput args = false ↔
      args.data.all pyIsSpace = true) := by
  constructor
  · intro s count args o hv
    rw [run_eq_invalid s count args o hv]
    exact ⟨rfl, rfl, rfl, rfl⟩
  · intro args
    unfold defaultValidateInput
    by_cases he : args = ""
    · subst he; simp
    · rw [if_neg he]
      have hmk : pyStrip args = "" ↔
          ((args.data.dropWhile pyIsSpace).reverse.dropWhile pyIsSpace).reverse = [] := by
        unfold pyStrip
        constructor
        · intro h
          have h2 := congrArg String.data h
          simpa using h2
        · intro h
          rw [h]
      rw [decide_eq_false_iff_not, Decidable.not_not, hmk,
        List.reverse_eq_nil_iff, List.dropWhile_eq_nil_iff, List.all_eq_true]
      constructor
      · intro h c hcmem
        have hsplit : c ∈ List.takeWhile pyIsSpace args.data ++
            List.dropWhile pyIsSpace args.data := by
          rw [List.takeWhile_append_dropWhile]; exact hcmem
        rcases List.mem_append.1 hsplit with htk | hdr
        · exact List.mem_takeWhile_imp htk
        · exact h c (List.mem_reverse.2 hdr)
      · intro h c hcmem
        have hc2 : c ∈ args.data :=
          List.Sublist.mem (List.mem_reverse.1 hcmem) (List.dropWhile_sublist pyIsSpace)
        exact h c hc2

/-- Witness for C7: whitespace-only input on the echo skill. -/
theorem invalid_input_no_side_effects_instance :
    ((Skill.run echoSkill 0 "  " none).output =
        formatError echoSkill.name "Input is empty or invalid." ∧
      (Skill.run echoSkill 0 "  " none).count = 0 ∧
      (Skill.run echoSkill 0 "  " none).events = [] ∧
      (Skill.run echoSkill 0 "  " none).warnings = []) ∧
    (defaultValidateInput "  " = false ↔ "  ".data.all pyIsSpace = true) :=
  ⟨invalid_input_no_side_effects.1 echoSkill 0 "  " none (by decide),
   invalid_input_no_side_effects.2 "  "⟩

/-- The same skill with every lifecycle hook replaced by one whose body
succeeds. -/
def Skill.scrubHooks (s : Skill) : Skill :=
  { s with
    onStart := { s.onStart with fails := none }
    onFinish := { s.onFinish with fails := none }
    onError := { s.onError with fails := none } }

theorem safeHook_events_scrub (h : HookSpec) (k : HookKind) (err : Option ErrArg) :
    (safeHook { h with fails := none } k err).1 = (safeHook h k err).1 := by
  unfold safeHook
  cases hco : h.isCoroutineFn <;> cases hf : h.fails <;> simp [hco, hf]

theorem scrubHooks_onStart (s : Skill) :
    s.scrubHooks.onStart = { s.onStart with fails := none } := rfl

theorem scrubHooks_onFinish (s : Skill) :
    s.scrubHooks.onFinish = { s.onFinish with fails := none } := rfl

theorem scrubHooks_onError (s : Skill) :
    s.scrubHooks.onError = { s.onError with fails := none } := rfl

theorem scrubHooks_timeout (s : Skill) : s.scrubHooks.timeout = s.timeout := rfl

theorem scrubHooks_name (s : Skill) : s.scrubHooks.name = s.name := rfl

/-- Claim C8: an exception raised by a lifecycle hook itself is logged
and swallowed, never propagated: `run` takes the same path and returns
the same output, count and event trace as it would had the hook
succeeded; and whenever an invoked hook raises, the failure is recorded
in the warning log. -/
theorem hook_failures_swallowed (s : Skill) (count : Nat) (args : String)
    (o : Option Int) :
    ((Skill.run s count args o).output =
        (Skill.run s.scrubHooks count args o).output ∧
      (Skill.run s count args o).count =
        (Skill.run s.scrubHooks count args o).count ∧
      (Skill.run s count args o).path =
        (Skill.run s.scrubHooks count args o).path ∧
      (Skill.run s count args o).events =
        (Skill.run s.scrubHooks count args o).events) ∧
    (∀ (k : HookKind) (m : String), (s.hookSpec k).fails = some m →
      Event.hookInvoked k ∈ (Skill.run s count args o).events →
      ("⚠️ Hook '" ++ k.pyName ++ "' failed: " ++ m) ∈
        (Skill.run s count args o).warnings) := by
  have hsv : s.scrubHooks.validate = s.validate := rfl
  have hsc : s.scrubHooks.checkConfig = s.checkConfig := rfl
  have hsd : s.scrubHooks.execDuration = s.execDuration := rfl
  have hsb : s.scrubHooks.execBehavior = s.execBehavior := rfl
  have hsn : s.scrubHooks.name = s.name := rfl
  have hst : s.scrubHooks.timeout = s.timeout := rfl
  by_cases hv : s.validate args = false
  · rw [run_eq_invalid s count args o hv,
      run_eq_invalid s.scrubHooks count args o (by rw [hsv]; exact hv)]
    exact ⟨⟨rfl, rfl, rfl, rfl⟩, by intro k m hf hmem; simp at hmem⟩
  · rw [Bool.not_eq_false] at hv
    by_cases hc : s.checkConfig = false
    · rw [run_eq_config s count args o hv hc,
        run_eq_config s.scrubHooks count args o (by rw [hsv]; exact hv) (by rw [hsc]; exact hc)]
      exact ⟨⟨rfl, rfl, rfl, rfl⟩, by intro k m hf hmem; simp at hmem⟩
    · rw [Bool.not_eq_false] at hc
      by_cases ht : s.execDuration args > pyOrInt o s.timeout
      · rw [run_eq_timeout s count args o hv hc ht,
          run_eq_timeout s.scrubHooks count args o (by rw [hsv]; exact hv)
            (by rw [hsc]; exact hc) (by rw [hsd, hst]; exact ht)]
        refine ⟨⟨?_, rfl, rfl, ?_⟩, ?_⟩
        · simp only [scrubHooks_name, scrubHooks_timeout]
        · simp only [scrubHooks_name, scrubHooks_timeout, scrubHooks_onStart,
            scrubHooks_onError, safeHook_events_scrub]
        · intro k m hf hmem
          simp only [List.mem_append] at hmem ⊢
          rcases hmem with (h1 | hx) | h3
          · rcases (hookInvoked_mem_safeHook _ _ _ _).1 h1 with ⟨hk, hco⟩
            subst hk
            exact Or.inl (safeHook_warning _ _ _ m hf hco)
          · simp at hx
          · rcases (hookInvoked_mem_safeHook _ _ _ _).1 h3 with ⟨hk, hco⟩
            subst hk
            exact Or.inr (safeHook_warning _ _ _ m hf hco)
      · cases hb : s.execBehavior args with
        | ok result =>
          rw [run_eq_success s count args o result hv hc ht hb,
            run_eq_success s.scrubHooks count args o result (by rw [hsv]; exact hv)
              (by rw [hsc]; exact hc) (by rw [hsd, hst]; exact ht) (by rw [hsb]; exact hb)]
          refine ⟨⟨rfl, rfl, rfl, ?_⟩, ?_⟩
          · simp only [scrubHooks_onStart, scrubHooks_onFinish, safeHook_events_scrub]
          · intro k m hf hmem
            simp only [List.mem_append] at hmem ⊢
            rcases hmem with (h1 | hx) | h2
            · rcases (hookInvoked_mem_safeHook _ _ _ _).1 h1 with ⟨hk, hco⟩
              subst hk
              exact Or.inl (safeHook_warning _ _ _ m hf hco)
            · simp at hx
            · rcases (hookInvoked_mem_safeHook _ _ _ _).1 h2 with ⟨hk, hco⟩
              subst hk
              exact Or.inr (safeHook_warning _ _ _ m hf hco)
        | error e =>
          rw [run_eq_error s count args o e hv hc ht hb,
            run_eq_error s.scrubHooks count args o e (by rw [hsv]; exact hv)
              (by rw [hsc]; exact hc) (by rw [hsd, hst]; exact ht) (by rw [hsb]; exact hb)]
          refine ⟨⟨?_, rfl, rfl, ?_⟩, ?_⟩
          · simp only [scrubHooks_name]
          · simp only [scrubHooks_name, scrubHooks_timeout, scrubHooks_onStart,
              scrubHooks_onError, safeHook_events_scrub]
          · intro k m hf hmem
            simp only [List.mem_append] at hmem ⊢
            rcases hmem with (h1 | hx) | h3
            · rcases (hookInvoked_mem_safeHook _ _ _ _).1 h1 with ⟨hk, hco⟩
              subst hk
              exact Or.inl (safeHook_warning _ _ _ m hf hco)
            · simp at hx
            · rcases (hookInvoked_mem_safeHook _ _ _ _).1 h3 with ⟨hk, hco⟩
              subst hk
              exact Or.inr (safeHook_warning _ _ _ m hf hco)

/-- Witness for C8: a skill whose `on_start` hook raises still succeeds
and logs the hook failure. -/
theorem hook_failures_swallowed_instance :
    ((Skill.run hookFailSkill 0 "hi" none).output =
        (Skill.run hookFailSkill.scrubHooks 0 "hi" none).output ∧
      (Skill.run hookFailSkill 0 "hi" none).count =
        (Skill.run hookFailSkill.scrubHooks 0 "hi" none).count ∧
      (Skill.run hookFailSkill 0 "hi" none).path =
        (Skill.run hookFailSkill.scrubHooks 0 "hi" none).path ∧
      (Skill.run hookFailSkill 0 "hi" none).events =
        (Skill.run hookFailSkill.scrubHooks 0 "hi" none).events) ∧
    (∀ (k : HookKind) (m : String), (hookFailSkill.hookSpec k).fails = some m →
      Event.hookInvoked k ∈ (Skill.run hookFailSkill 0 "hi" none).events →
      ("⚠️ Hook '" ++ k.pyName ++ "' failed: " ++ m) ∈
        (Skill.run hookFailSkill 0 "hi" none).warnings) :=
  hook_failures_swallowed hookFailSkill 0 "hi" none

/-- Claim C10: a lifecycle hook overridden as a plain synchronous
function is never invoked: `_safe_hook` awaits a hook only when
`asyncio.iscoroutinefunction` holds of it, and silently skips it
otherwise, on every path of `run`. -/
theorem sync_hook_skipped (s : Skill) (count : Nat) (args : String)
    (o : Option Int) (k : HookKind) (hk : (s.hookSpec k).isCoroutineFn = false) :
    Event.hookInvoked k ∉ (Skill.run s count args o).events := by
  have key : ∀ (h2 : HookSpec) (k2 : HookKind) (err : Option ErrArg),
      Event.hookInvoked k ∈ (safeHook h2 k2 err).1 → s.hookSpec k2 = h2 → False := by
    intro h2 k2 err hmem hspec
    rcases (hookInvoked_mem_safeHook _ _ _ _).1 hmem with ⟨hkk, hco⟩
    subst hkk
    rw [hspec] at hk
    rw [hk] at hco
    exact Bool.false_ne_true hco
  by_cases hv : s.validate args = false
  · rw [run_eq_invalid s count args o hv]; simp
  · rw [Bool.not_eq_false] at hv
    by_cases hc : s.checkConfig = false
    · rw [run_eq_config s count args o hv hc]; simp
    · rw [Bool.not_eq_false] at hc
      by_cases ht : s.execDuration args > pyOrInt o s.timeout
      · rw [run_eq_timeout s count args o hv hc ht]
        intro hmem
        simp only [List.mem_append] at hmem
        rcases hmem with (h1 | hx) | h3
        · exact key _ _ _ h1 rfl
        · simp at hx
        · exact key _ _ _ h3 rfl
      · cases hb : s.execBehavior args with
        | ok result =>
          rw [run_eq_success s count args o result hv hc ht hb]
          intro hmem
          simp only [List.mem_append] at hmem
          rcases hmem with (h1 | hx) | h2
          · exact key _ _ _ h1 rfl
          · simp at hx
          · exact key _ _ _ h2 rfl
        | error e =>
          rw [run_eq_error s count args o e hv hc ht hb]
          intro hmem
          simp only [List.mem_append] at hmem
          rcases hmem with (h1 | hx) | h3
          · exact key _ _ _ h1 rfl
          · simp at hx
          · exact key _ _ _ h3 rfl

/-- Witness for C10: the skill with a synchronous `on_finish` hook. -/
theorem sync_hook_skipped_instance :
    Event.hookInvoked .onFinish ∉ (Skill.run syncHookSkill 0 "hi" none).events :=
  sync_hook_skipped syncHookSkill 0 "hi" none .onFinish (by decide)

/-! ### Intent detection (claim C2) -/

/-- `detect_intent` returns exactly the first skill, in registration
order, one of whose keywords occurs in the text. -/
theorem detectIntent_eq_some_iff (m : List (String × List String)) (t : String)
    (name : String) :
    detectIntent m t = some name ↔
      ∃ pre kws post, m = pre ++ (name, kws) :: post ∧
        kws.any (fun kw => pyIn kw t) = true ∧
        ∀ p ∈ pre, p.2.any (fun kw => pyIn kw t) = false := by
  induction m with
  | nil => simp [detectIntent]
  | cons hd rest ih =>
    obtain ⟨n0, k0⟩ := hd
    unfold detectIntent
    by_cases hm : k0.any (fun kw => pyIn kw t) = true
    · rw [if_pos hm]
      constructor
      · intro h
        injection h with h
        subst h
        exact ⟨[], k0, rest, rfl, hm, by simp⟩
      · rintro ⟨pre, kws, post, heq, hkws, hpre⟩
        cases pre with
        | nil =>
          simp only [List.nil_append, List.cons.injEq, Prod.mk.injEq] at heq
          rw [heq.1.1]
        | cons p pre2 =>
          simp only [List.cons_append, List.cons.injEq] at heq
          have hp0 := hpre p (List.mem_cons_self p pre2)
          rw [← heq.1] at hp0
          have hp1 : (k0.any fun kw => pyIn kw t) = false := hp0
          rw [hm] at hp1
          cases hp1
    · rw [if_neg hm]
      rw [Bool.not_eq_true] at hm
      rw [ih]
      constructor
      · rintro ⟨pre, kws, post, heq, hkws, hpre⟩
        refine ⟨(n0, k0) :: pre, kws, post, by rw [heq, List.cons_append], hkws, ?_⟩
        intro p hp
        rcases List.mem_cons.1 hp with h | h
        · subst h; exact hm
        · exact hpre p h
      · rintro ⟨pre, kws, post, heq, hkws, hpre⟩
        cases pre with
        | nil =>
          simp only [List.nil_append, List.cons.injEq, Prod.mk.injEq] at heq
          rw [heq.1.2] at hm
          rw [hkws] at hm
          cases hm
        | cons p pre2 =>
          simp only [List.cons_append, List.cons.injEq] at heq
          exact ⟨pre2, kws, post, heq.2, hkws,
            fun q hq => hpre q (List.mem_cons_of_mem p hq)⟩

/-- Claim C2: intent detection lower-cases the input (`process_input`
passes the lowered text to `detect_intent`), scans the intent map in
registration order and returns the first skill one of whose keywords is
a substring of the lowered input; in particular, when a skill A precedes
a skill B in the map and the input matches A (and no skill registered
before A), the Dispatcher selects A and routes to A's skill even when
the input also matches B. -/
theorem detect_intent_first_match (st : BrainState) (text : String) :
    (∀ name, detectIntent (intentMap st) (pyLower text) = some name ↔
      ∃ pre kws post, intentMap st = pre ++ (name, kws) :: post ∧
        kws.any (fun kw => pyIn kw (pyLower text)) = true ∧
        ∀ p ∈ pre, p.2.any (fun kw => pyIn kw (pyLower text)) = false) ∧
    (∀ (pre mid post : List (String × List String)) (A B : String)
      (kwsA kwsB : List String),
      intentMap st = pre ++ (A, kwsA) :: mid ++ (B, kwsB) :: post →
      kwsA.any (fun kw => pyIn kw (pyLower text)) = true →
      (∀ p ∈ pre, p.2.any (fun kw => pyIn kw (pyLower text)) = false) →
      detectIntent (intentMap st) (pyLower text) = some A) ∧
    (∀ name skill count,
      detectIntent (intentMap st) (pyLower text) = some name →
      pyDictGet st.skills name = some (skill, count) →
      processInput st text = routeToSkill st name skill count text) := by
  refine ⟨fun name => detectIntent_eq_some_iff _ _ name, ?_, ?_⟩
  · intro pre mid post A B kwsA kwsB heq hA hpre
    refine (detectIntent_eq_some_iff _ _ A).2
      ⟨pre, kwsA, mid ++ (B, kwsB) :: post, ?_, hA, hpre⟩
    rw [heq]
    simp
  · intro name skill count hdet hget
    unfold processInput
    simp only [hdet, hget]

/-- Example brain used by several witnesses: two registered skills whose
keyword sets overlap on "echo", the echo skill registered first. -/
def ex2State : BrainState :=
  { skills := [("echo", echoSkill, 0), ("fail", boomSkill, 0)], memory := .nil }

/-- Witness for C2: "please ECHO and boom" matches both skills' keyword
sets, and the first-registered echo skill wins. -/
theorem detect_intent_first_match_instance :
    detectIntent (intentMap ex2State) (pyLower "please ECHO and boom") = some "echo" :=
  (detect_intent_first_match ex2State "please ECHO and boom").2.1
    [] [] [] "echo" "fail" ["echo"] ["echo", "boom"] rfl (by decide) (by simp)

/-! ### Conversation history (claim C3) -/

theorem objGet_objSet_same (m : JsonObj) (k : String) (v : Json) :
    objGet (objSet m k v) k = some v := by
  match m with
  | .nil => simp [objSet, objGet]
  | .cons k2 v2 t =>
    unfold objSet
    by_cases h : k2 = k
    · rw [if_pos h]; unfold objGet; rw [if_pos h]
    · rw [if_neg h]; unfold objGet; rw [if_neg h]; exact objGet_objSet_same t k v

theorem objGet_objSet_ne (m : JsonObj) (a b : String) (v : Json) (hab : a ≠ b) :
    objGet (objSet m a v) b = objGet m b := by
  match m with
  | .nil => simp [objSet, objGet, hab]
  | .cons k2 v2 t =>
    unfold objSet
    by_cases h : k2 = a
    · rw [if_pos h]
      unfold objGet
      rw [if_neg (h ▸ hab), if_neg (h ▸ hab)]
    · rw [if_neg h]
      unfold objGet
      by_cases h2 : k2 = b
      · rw [if_pos h2, if_pos h2]
      · rw [if_neg h2, if_neg h2]; exact objGet_objSet_ne t a b v hab

theorem jarrToList_ofList (l : List Json) : jarrToList (jarrOfList l) = l := by
  induction l with
  | nil => rfl
  | cons v t ih => simpa [jarrOfList, jarrToList] using ih

theorem jarrToList_append (a : JsonArr) (v : Json) :
    jarrToList (jarrAppend a v) = jarrToList a ++ [v] := by
  match a with
  | .nil => rfl
  | .cons h t => simpa [jarrAppend, jarrToList] using jarrToList_append t v

theorem jarrToList_lastN (n : Nat) (a : JsonArr) :
    jarrToList (jarrLastN n a) = pyLastN n (jarrToList a) := by
  unfold jarrLastN
  rw [jarrToList_ofList]

theorem pyLastN_length_le (n : Nat) (xs : List α) : (pyLastN n xs).length ≤ n := by
  unfold pyLastN
  rw [List.length_drop]
  omega

/-- Truncating, appending one element and truncating again is the same as
appending and truncating once: the FIFO window is stable. -/
theorem pyLastN_append_one (n : Nat) (xs : List α) (t : α) :
    pyLastN n (pyLastN n xs ++ [t]) = pyLastN n (xs ++ [t]) := by
  unfold pyLastN
  by_cases h : xs.length ≤ n
  · rw [Nat.sub_eq_zero_of_le h]
    simp
  · push_neg at h
    have h1 : (List.drop (xs.length - n) xs).length = n := by
      rw [List.length_drop]; omega
    rw [List.length_append, h1, List.length_append]
    simp only [List.length_cons, List.length_nil]
    have h2 : n + 1 - n = 1 := by omega
    rw [h2]
    rw [← List.drop_append_of_le_length (by omega : xs.length - n ≤ xs.length)]
    rw [List.drop_drop]
    congr 1
    omega

/-- What `_update_memory` does to the stored history when the stored
`conversation_history` is a list. -/
theorem updateMemory_spec (mem : JsonObj) (sn u r : String) (h0 : JsonArr)
    (hh : objGetD mem "conversation_history" (.arr .nil) = .arr h0) :
    (updateMemory mem sn u r).2 = none ∧
    objGet (updateMemory mem sn u r).1 "conversation_history" =
      some (.arr (jarrLastN 10 (jarrAppend h0 (turnOf u r)))) := by
  have e1 : objGetD (objSet (objSet mem "last_action" (.str sn)) "last_result" (.str r))
      "conversation_history" (.arr .nil) = .arr h0 := by
    unfold objGetD at hh ⊢
    rw [objGet_objSet_ne _ _ _ _ (by decide), objGet_objSet_ne _ _ _ _ (by decide)]
    exact hh
  unfold updateMemory
  simp only []
  rw [e1]
  exact ⟨rfl, objGet_objSet_same _ _ _⟩

/-- Sequential successful turns, starting from the given memory. -/
def foldTurns (mem : JsonObj) (ts : List (String × String × String)) : JsonObj :=
  ts.foldl (fun m e => (updateMemory m e.1 e.2.1 e.2.2).1) mem

theorem foldTurns_history (ts : List (String × String × String)) :
    ∀ (mem : JsonObj) (acc : List Json),
    objGetD mem "conversation_history" (.arr .nil) = .arr (jarrOfList (pyLastN 10 acc)) →
    historyList (foldTurns mem ts) =
      pyLastN 10 (acc ++ ts.map (fun e => turnOf e.2.1 e.2.2)) := by
  induction ts with
  | nil =>
    intro mem acc h
    simp only [foldTurns, List.foldl_nil, List.map_nil, List.append_nil]
    unfold historyList
    unfold objGetD at h
    cases hg : objGet mem "conversation_history" with
    | none =>
      rw [hg] at h
      simp only [Option.getD_none, Json.arr.injEq] at h
      have h2 := congrArg jarrToList h
      rw [jarrToList_ofList] at h2
      simp only [jarrToList] at h2
      exact h2
    | some j =>
      rw [hg] at h
      simp only [Option.getD_some] at h
      rw [h]
      exact jarrToList_ofList _
  | cons e ts ih =>
    intro mem acc h
    have hspec := updateMemory_spec mem e.1 e.2.1 e.2.2 (jarrOfList (pyLastN 10 acc)) h
    have hnext : objGetD (updateMemory mem e.1 e.2.1 e.2.2).1 "conversation_history"
        (.arr .nil) = .arr (jarrOfList (pyLastN 10 (acc ++ [turnOf e.2.1 e.2.2]))) := by
      unfold objGetD
      rw [hspec.2]
      simp only [Option.getD_some, Json.arr.injEq]
      have hl : jarrLastN 10 (jarrAppend (jarrOfList (pyLastN 10 acc)) (turnOf e.2.1 e.2.2)) =
          jarrOfList (pyLastN 10 (pyLastN 10 acc ++ [turnOf e.2.1 e.2.2])) := by
        unfold jarrLastN
        rw [jarrToList_append, jarrToList_ofList]
      rw [hl, pyLastN_append_one]
    have hstep : foldTurns mem (e :: ts) = foldTurns (updateMemory mem e.1 e.2.1 e.2.2).1 ts := rfl
    rw [hstep, ih _ (acc ++ [turnOf e.2.1 e.2.2]) hnext]
    simp [List.append_assoc]

/-- Claim C3: each processed turn appends one `{user, assistant}` entry
and truncates the stored history to the 10 most recent entries
(FIFO eviction by count), so the history never exceeds 10 turns at rest,
and after 15 sequential successful turns from a fresh memory exactly the
most recent 10 are retained in order. -/
theorem conversation_history_fifo :
    (∀ (mem : JsonObj) (sn u r : String) (h0 : JsonArr),
      objGetD mem "conversation_history" (.arr .nil) = .arr h0 →
      (updateMemory mem sn u r).2 = none ∧
      historyList (updateMemory mem sn u r).1 =
        pyLastN 10 (jarrToList h0 ++ [turnOf u r]) ∧
      (historyList (updateMemory mem sn u r).1).length ≤ 10) ∧
    (∀ ts : List (String × String × String),
      historyList (foldTurns .nil ts) =
        pyLastN 10 (ts.map (fun e => turnOf e.2.1 e.2.2))) ∧
    (∀ ts : List (String × String × String), ts.length = 15 →
      historyList (foldTurns .nil ts) =
        (ts.map (fun e => turnOf e.2.1 e.2.2)).drop 5) := by
  have hmain : ∀ ts : List (String × String × String),
      historyList (foldTurns .nil ts) =
        pyLastN 10 (ts.map (fun e => turnOf e.2.1 e.2.2)) := by
    intro ts
    have h := foldTurns_history ts JsonObj.nil [] rfl
    simpa using h
  refine ⟨?_, hmain, ?_⟩
  · intro mem sn u r h0 hh
    obtain ⟨h2, hget⟩ := updateMemory_spec mem sn u r h0 hh
    have hhist : historyList (updateMemory mem sn u r).1 =
        pyLastN 10 (jarrToList h0 ++ [turnOf u r]) := by
      unfold historyList
      rw [hget]
      show jarrToList (jarrLastN 10 (jarrAppend h0 (turnOf u r))) =
        pyLastN 10 (jarrToList h0 ++ [turnOf u r])
      rw [jarrToList_lastN, jarrToList_append]
    refine ⟨h2, hhist, ?_⟩
    rw [hhist]
    exact pyLastN_length_le 10 _
  · intro ts hlen
    rw [hmain ts]
    unfold pyLastN
    rw [List.length_map, hlen]

/-- Fifteen concrete sequential turns. -/
def turns15 : List (String × String × String) :=
  (List.range 15).map (fun i => ("echo", "user " ++ toString i, "reply " ++ toString i))

/-- Witness for C3: one update on a fresh memory, and the 15-turn run. -/
theorem conversation_history_fifo_instance :
    ((updateMemory .nil "echo" "hi" "yo").2 = none ∧
      historyList (updateMemory .nil "echo" "hi" "yo").1 =
        pyLastN 10 (jarrToList .nil ++ [turnOf "hi" "yo"]) ∧
      (historyList (updateMemory .nil "echo" "hi" "yo").1).length ≤ 10) ∧
    historyList (foldTurns .nil turns15) =
      (turns15.map (fun e => turnOf e.2.1 e.2.2)).drop 5 :=
  ⟨conversation_history_fifo.1 JsonObj.nil "echo" "hi" "yo" JsonArr.nil rfl,
   conversation_history_fifo.2.2 turns15 (by decide)⟩

/-- Claim C4: `process_input` is a total function into strings — for
every brain state and every input it returns one of the caller-facing
human-readable strings (the help message when no intent matches, the
defensive system-error string when the intent is missing from the skill
map, the internal-error string when `_update_memory` raises inside
`route_to_skill`, or the string produced by the matched skill's supervised
`run`); every failure mode inside dispatch and skill execution degrades
to a returned string rather than an escaping exception. -/
theorem process_input_always_returns (st : BrainState) (text : String) :
    (processInput st text).1 = helpMessage st ∨
    (∃ intent, (processInput st text).1 = systemErrorMsg intent) ∨
    (∃ sn, (processInput st text).1 = internalErrorMsg sn) ∨
    (∃ name skill count, pyDictGet st.skills name = some (skill, count) ∧
      (processInput st text).1 = (Skill.run skill count text none).output) := by
  cases hdet : detectIntent (intentMap st) (pyLower text) with
  | none =>
    left
    unfold processInput
    rw [hdet]
  | some intent =>
    cases hget : pyDictGet st.skills intent with
    | none =>
      refine Or.inr (Or.inl ⟨intent, ?_⟩)
      unfold processInput
      simp only [hdet, hget]
    | some pr =>
      obtain ⟨skill, count⟩ := pr
      have hroute : processInput st text = routeToSkill st intent skill count text := by
        unfold processInput
        simp only [hdet, hget]
      cases hupd : (updateMemory st.memory skill.name text
          (Skill.run skill count text none).output).2 with
      | none =>
        refine Or.inr (Or.inr (Or.inr ⟨intent, skill, count, hget, ?_⟩))
        rw [hroute]
        unfold routeToSkill
        simp only [hupd]
      | some e =>
        refine Or.inr (Or.inr (Or.inl ⟨skill.name, ?_⟩))
        rw [hroute]
        unfold routeToSkill
        simp only [hupd]

/-! ### Round trip, numbers (towards claim C9) -/

/-- Value of a big-endian list of digit characters. -/
def valBE : List Char → Nat
  | [] => 0
  | c :: cs => (c.toNat - 48) * 10 ^ cs.length + valBE cs

/-- The remainder a parser must not continue into: its head is not a digit. -/
def noDigitHead (cs : List Char) : Prop :=
  ∀ c, cs.head? = some c → isDigitChar c = false

theorem isDigitChar_digitChar (d : Nat) (hd : d < 10) :
    isDigitChar (digitChar d) = true := by
  interval_cases d <;> decide

theorem digitChar_toNat (d : Nat) (hd : d < 10) : (digitChar d).toNat = 48 + d := by
  interval_cases d <;> decide

theorem isDigitChar_toNat (c : Char) (h : isDigitChar c = true) :
    48 ≤ c.toNat ∧ c.toNat ≤ 57 := by
  simpa [isDigitChar] using h

theorem printNat_all_digit (n : Nat) : ∀ c ∈ printNat n, isDigitChar c = true := by
  unfold printNat
  split
  · intro c hc
    simp only [List.mem_singleton] at hc
    subst hc
    decide
  · intro c hc
    rw [List.mem_reverse] at hc
    rcases List.mem_map.1 hc with ⟨d, hdmem, hdc⟩
    have hlt := Nat.digits_lt_base (by omega) hdmem
    subst hdc
    exact isDigitChar_digitChar d hlt

theorem printNat_ne_nil (n : Nat) : printNat n ≠ [] := by
  unfold printNat
  split
  · simp
  · next h =>
    simp only [ne_eq, List.reverse_eq_nil_iff, List.map_eq_nil_iff]
    exact Nat.digits_ne_nil_iff_ne_zero.2 h

theorem valBE_append (xs : List Char) (c : Char) :
    valBE (xs ++ [c]) = 10 * valBE xs + (c.toNat - 48) := by
  induction xs with
  | nil => simp [valBE]
  | cons x xs ih =>
    simp only [List.cons_append, valBE, List.append_eq, List.length_append,
      List.length_cons, List.length_nil, ih]
    ring

theorem valBE_digits (ds : List Nat) (hlt : ∀ d ∈ ds, d < 10) :
    valBE ((ds.map digitChar).reverse) = Nat.ofDigits 10 ds := by
  induction ds with
  | nil => simp [valBE]
  | cons d ds ih =>
    simp only [List.map_cons, List.reverse_cons, Nat.ofDigits_cons]
    rw [valBE_append]
    rw [ih (fun x hx => hlt x (List.mem_cons_of_mem d hx))]
    rw [digitChar_toNat d (hlt d (List.mem_cons_self d ds))]
    have h48 : 48 + d - 48 = d := by omega
    rw [h48]
    ring

theorem valBE_printNat (n : Nat) : valBE (printNat n) = n := by
  unfold printNat
  split
  · next h => rw [h]; decide
  · rw [valBE_digits _ (fun d hd => Nat.digits_lt_base (by omega) hd)]
    exact Nat.ofDigits_digits 10 n

theorem parseNatAcc_spec (ds : List Char) (acc : Nat) (rest : List Char)
    (hds : ∀ c ∈ ds, isDigitChar c = true) (hrest : noDigitHead rest) :
    parseNatAcc acc (ds ++ rest) = (acc * 10 ^ ds.length + valBE ds, rest) := by
  induction ds generalizing acc with
  | nil =>
    simp only [List.nil_append, valBE, pow_zero, Nat.mul_one, Nat.add_zero,
      List.length_nil]
    cases rest with
    | nil => rfl
    | cons c cs =>
      unfold parseNatAcc
      rw [if_neg (by rw [hrest c rfl]; exact Bool.false_ne_true)]
  | cons d ds ih =>
    simp only [List.cons_append]
    unfold parseNatAcc
    rw [if_pos (hds d (List.mem_cons_self d ds))]
    rw [ih (acc * 10 + (d.toNat - 48)) (fun c hc => hds c (List.mem_cons_of_mem d hc))]
    simp only [Prod.mk.injEq, List.length_cons, valBE, and_true]
    ring

theorem parseIntChars_minus (d : Char) (ds : List Char) :
    parseIntChars ('-' :: d :: ds) =
      if isDigitChar d then
        some (-Int.ofNat (parseNatAcc 0 (d :: ds)).1, (parseNatAcc 0 (d :: ds)).2)
      else none := rfl

theorem parseIntChars_digitStart (c : Char) (cs : List Char) (h : ¬ c = '-') :
    parseIntChars (c :: cs) =
      if isDigitChar c then
        some (Int.ofNat (parseNatAcc 0 (c :: cs)).1, (parseNatAcc 0 (c :: cs)).2)
      else none := by
  simp only [parseIntChars]
  rw [if_neg h]

theorem parseIntChars_printInt (i : Int) (rest : List Char) (hrest : noDigitHead rest) :
    parseIntChars (printInt i ++ rest) = some (i, rest) := by
  unfold printInt
  split
  · next hneg =>
    obtain ⟨c, cs, hc⟩ := List.exists_cons_of_ne_nil (printNat_ne_nil i.natAbs)
    rw [hc]
    simp only [List.cons_append]
    have hdig : isDigitChar c = true :=
      printNat_all_digit i.natAbs c (by rw [hc]; exact List.mem_cons_self c cs)
    rw [parseIntChars_minus, if_pos hdig]
    have hp : parseNatAcc 0 ((c :: cs) ++ rest) = (i.natAbs, rest) := by
      have := parseNatAcc_spec (c :: cs) 0 rest
        (by rw [← hc]; exact printNat_all_digit i.natAbs) hrest
      rw [this]
      have hv : valBE (c :: cs) = i.natAbs := by rw [← hc]; exact valBE_printNat i.natAbs
      rw [hv]
      simp
    simp only [List.cons_append] at hp
    rw [hp]
    simp only [Option.some.injEq, Prod.mk.injEq, and_true]
    rw [Int.ofNat_eq_natCast]
    omega
  · next hpos =>
    obtain ⟨c, cs, hc⟩ := List.exists_cons_of_ne_nil (printNat_ne_nil i.toNat)
    rw [hc]
    simp only [List.cons_append]
    have hdig : isDigitChar c = true :=
      printNat_all_digit i.toNat c (by rw [hc]; exact List.mem_cons_self c cs)
    have hnm : ¬ c = '-' := by
      intro hcm
      rw [hcm] at hdig
      exact absurd hdig (by decide)
    rw [parseIntChars_digitStart c (cs ++ rest) hnm, if_pos hdig]
    have hp : parseNatAcc 0 ((c :: cs) ++ rest) = (i.toNat, rest) := by
      have := parseNatAcc_spec (c :: cs) 0 rest
        (by rw [← hc]; exact printNat_all_digit i.toNat) hrest
      rw [this]
      have hv : valBE (c :: cs) = i.toNat := by rw [← hc]; exact valBE_printNat i.toNat
      rw [hv]
      simp
    simp only [List.cons_append] at hp
    rw [hp]
    simp only [Option.some.injEq, Prod.mk.injEq, and_true]
    rw [Int.ofNat_eq_natCast]
    omega

/-! ### Round trip, strings (towards claim C9) -/

theorem parseStrBody_quote (cs : List Char) : parseStrBody ('"' :: cs) = some ([], cs) := by
  rw [parseStrBody.eq_def]
  simp

theorem parseStrBody_esc_quote (cs : List Char) :
    parseStrBody ('\\' :: '"' :: cs) = consMap '"' (parseStrBody cs) := by
  rw [parseStrBody.eq_def]
  simp

theorem parseStrBody_esc_bs (cs : List Char) :
    parseStrBody ('\\' :: '\\' :: cs) = consMap '\\' (parseStrBody cs) := by
  rw [parseStrBody.eq_def]
  simp

theorem parseStrBody_esc_n (cs : List Char) :
    parseStrBody ('\\' :: 'n' :: cs) = consMap '\n' (parseStrBody cs) := by
  rw [parseStrBody.eq_def]
  simp

theorem parseStrBody_esc_t (cs : List Char) :
    parseStrBody ('\\' :: 't' :: cs) = consMap '\t' (parseStrBody cs) := by
  rw [parseStrBody.eq_def]
  simp

theorem parseStrBody_esc_r (cs : List Char) :
    parseStrBody ('\\' :: 'r' :: cs) = consMap '\r' (parseStrBody cs) := by
  rw [parseStrBody.eq_def]
  simp

theorem parseStrBody_esc_b (cs : List Char) :
    parseStrBody ('\\' :: 'b' :: cs) = consMap '\x08' (parseStrBody cs) := by
  rw [parseStrBody.eq_def]
  simp

theorem parseStrBody_esc_f (cs : List Char) :
    parseStrBody ('\\' :: 'f' :: cs) = consMap '\x0c' (parseStrBody cs) := by
  rw [parseStrBody.eq_def]
  simp

theorem parseStrBody_plain (c : Char) (cs : List Char)
    (h1 : ¬ c = '"') (h2 : ¬ c = '\\') :
    parseStrBody (c :: cs) = consMap c (parseStrBody cs) := by
  rw [parseStrBody.eq_def]
  simp only []
  rw [if_neg h1, if_neg h2]

theorem parseStrBody_u (h1 h2 h3 h4 : Char) (cs : List Char) :
    parseStrBody ('\\' :: 'u' :: h1 :: h2 :: h3 :: h4 :: cs) =
      match hexVal h1, hexVal h2, hexVal h3, hexVal h4 with
      | some a, some b, some c2, some d =>
        consMap (Char.ofNat (4096 * a + 256 * b + 16 * c2 + d)) (parseStrBody cs)
      | _, _, _, _ => none := by
  rw [parseStrBody.eq_def]
  simp

theorem hexVal_hexChar (m : Nat) (hm : m < 16) :
    hexVal (hexChar m) = some m := by
  interval_cases m <;> decide

/-- Unescaping is a left inverse of escaping: the JSON string-body parser
recovers exactly the characters the escaper encoded, leaving the
remainder after the closing quote untouched. -/
theorem parseStrBody_escape (cs : List Char) :
    ∀ rest : List Char, parseStrBody (escapeStr cs ++ '"' :: rest) = some (cs, rest) := by
  induction cs with
  | nil =>
    intro rest
    simp only [escapeStr, List.nil_append]
    exact parseStrBody_quote rest
  | cons c cs ih =>
    intro rest
    show parseStrBody ((escapeChar c ++ escapeStr cs) ++ '"' :: rest) = some (c :: cs, rest)
    rw [List.append_assoc]
    unfold escapeChar
    split_ifs with h1 h2 h3 h4 h5 h6 h7 h8
    · subst h1
      simp only [List.cons_append, List.nil_append]
      rw [parseStrBody_esc_quote, ih rest]
      rfl
    · subst h2
      simp only [List.cons_append, List.nil_append]
      rw [parseStrBody_esc_bs, ih rest]
      rfl
    · subst h3
      simp only [List.cons_append, List.nil_append]
      rw [parseStrBody_esc_n, ih rest]
      rfl
    · subst h4
      simp only [List.cons_append, List.nil_append]
      rw [parseStrBody_esc_t, ih rest]
      rfl
    · subst h5
      simp only [List.cons_append, List.nil_append]
      rw [parseStrBody_esc_r, ih rest]
      rfl
    · subst h6
      simp only [List.cons_append, List.nil_append]
      rw [parseStrBody_esc_b, ih rest]
      rfl
    · subst h7
      simp only [List.cons_append, List.nil_append]
      rw [parseStrBody_esc_f, ih rest]
      rfl
    · simp only [List.cons_append, List.nil_append]
      rw [parseStrBody_u]
      rw [hexVal_hexChar (c.toNat / 16) (by omega),
        hexVal_hexChar (c.toNat % 16) (by omega)]
      have h0 : hexVal '0' = some 0 := rfl
      rw [h0]
      show consMap (Char.ofNat (4096 * 0 + 256 * 0 + 16 * (c.toNat / 16) + c.toNat % 16))
        (parseStrBody (escapeStr cs ++ '"' :: rest)) = some (c :: cs, rest)
      rw [ih rest]
      have hch : 4096 * 0 + 256 * 0 + 16 * (c.toNat / 16) + c.toNat % 16 = c.toNat := by
        omega
      rw [hch, Char.ofNat_toNat]
      rfl
    · simp only [List.singleton_append]
      rw [parseStrBody_plain c _ h1 h2, ih rest]
      rfl

/-! ### Round trip, values (claim C9) -/

mutual
/-- Fuel needed to parse a printed value: one unit per parser call. -/
def jsize : Json → Nat
  | .null => 1
  | .bool _ => 1
  | .int _ => 1
  | .str _ => 1
  | .arr a => 1 + asize a
  | .obj o => 1 + osize o
def asize : JsonArr → Nat
  | .nil => 0
  | .cons v t => 1 + jsize v + asize t
def osize : JsonObj → Nat
  | .nil => 0
  | .cons _ v t => 1 + jsize v + osize t
end

theorem digit_head_ne (c : Char) (h : isDigitChar c = true) :
    ¬ c = 'n' ∧ ¬ c = 't' ∧ ¬ c = 'f' ∧ ¬ c = '"' ∧ ¬ c = '[' ∧ ¬ c = '{' := by
  refine ⟨?_, ?_, ?_, ?_, ?_, ?_⟩ <;>
    (intro hc; subst hc; exact absurd h (by decide))

theorem printInt_head (i : Int) :
    ∃ c cs, printInt i = c :: cs ∧ (c = '-' ∨ isDigitChar c = true) := by
  unfold printInt
  split
  · exact ⟨'-', printNat i.natAbs, rfl, Or.inl rfl⟩
  · obtain ⟨c, cs, hc⟩ := List.exists_cons_of_ne_nil (printNat_ne_nil i.toNat)
    exact ⟨c, cs, hc, Or.inr (printNat_all_digit i.toNat c
      (by rw [hc]; exact List.mem_cons_self c cs))⟩

/-- The first character of a printed value is never the array terminator. -/
theorem printJson_head (v : Json) :
    ∃ c cs, printJson v = c :: cs ∧ ¬ c = ']' := by
  match v with
  | .null => exact ⟨'n', _, rfl, by decide⟩
  | .bool true => exact ⟨'t', _, rfl, by decide⟩
  | .bool false => exact ⟨'f', _, rfl, by decide⟩
  | .int i =>
    obtain ⟨c, cs, hc, hcd⟩ := printInt_head i
    refine ⟨c, cs, hc, ?_⟩
    rcases hcd with hm | hdig
    · subst hm; decide
    · intro hc2
      subst hc2
      exact absurd hdig (by decide)
  | .str s => exact ⟨'"', _, rfl, by decide⟩
  | .arr a => exact ⟨'[', _, rfl, by decide⟩
  | .obj o => exact ⟨'{', _, rfl, by decide⟩

theorem noDigitHead_nil : noDigitHead [] := by
  intro c h
  simp at h

theorem noDigitHead_cons (c : Char) (h : isDigitChar c = false) (cs : List Char) :
    noDigitHead (c :: cs) := by
  intro d hd
  simp only [List.head?_cons, Option.some.injEq] at hd
  rw [← hd]
  exact h

/-! Stepping equations for `parseVal` at each head character. -/

theorem parseVal_null (f : Nat) (rest : List Char) :
    parseVal (f + 1) ('n' :: 'u' :: 'l' :: 'l' :: rest) = some (.null, rest) := by
  rw [parseVal.eq_def]
  simp [dropLit]

theorem parseVal_true (f : Nat) (rest : List Char) :
    parseVal (f + 1) ('t' :: 'r' :: 'u' :: 'e' :: rest) = some (.bool true, rest) := by
  rw [parseVal.eq_def]
  simp [dropLit]

theorem parseVal_false (f : Nat) (rest : List Char) :
    parseVal (f + 1) ('f' :: 'a' :: 'l' :: 's' :: 'e' :: rest) = some (.bool false, rest) := by
  rw [parseVal.eq_def]
  simp [dropLit]

theorem parseVal_quote (f : Nat) (cs : List Char) :
    parseVal (f + 1) ('"' :: cs) =
      (parseStrBody cs).map (fun p => (.str (String.mk p.1), p.2)) := by
  rw [parseVal.eq_def]
  simp

theorem parseVal_arrNil (f : Nat) (rest : List Char) :
    parseVal (f + 1) ('[' :: ']' :: rest) = some (.arr .nil, rest) := by
  rw [parseVal.eq_def]
  simp

theorem parseVal_arrCons (f : Nat) (d : Char) (ds : List Char) (hd : ¬ d = ']') :
    parseVal (f + 1) ('[' :: d :: ds) =
      (parseArrElems f (d :: ds)).map (fun p => (.arr p.1, p.2)) := by
  rw [parseVal.eq_def]
  simp [hd]

theorem parseVal_objNil (f : Nat) (rest : List Char) :
    parseVal (f + 1) ('{' :: '}' :: rest) = some (.obj .nil, rest) := by
  rw [parseVal.eq_def]
  simp

theorem parseVal_objCons (f : Nat) (d : Char) (ds : List Char) (hd : ¬ d = '}') :
    parseVal (f + 1) ('{' :: d :: ds) =
      (parseObjFields f (d :: ds)).map (fun p => (.obj p.1, p.2)) := by
  rw [parseVal.eq_def]
  simp [hd]

theorem parseVal_intStart (f : Nat) (c : Char) (cs : List Char)
    (h1 : ¬ c = 'n') (h2 : ¬ c = 't') (h3 : ¬ c = 'f') (h4 : ¬ c = '"')
    (h5 : ¬ c = '[') (h6 : ¬ c = '{') :
    parseVal (f + 1) (c :: cs) =
      (parseIntChars (c :: cs)).map (fun p => (.int p.1, p.2)) := by
  rw [parseVal.eq_def]
  simp only []
  rw [if_neg h1, if_neg h2, if_neg h3, if_neg h4, if_neg h5, if_neg h6]

theorem parseArrElems_succ_eq (f : Nat) (cs : List Char) :
    parseArrElems (f + 1) cs =
      match parseVal f cs with
      | none => none
      | some (v, r) =>
        match r with
        | [] => none
        | d :: ds =>
          if d = ',' then (parseArrElems f ds).map (fun p => (.cons v p.1, p.2))
          else if d = ']' then some (.cons v .nil, ds)
          else none := by
  rw [parseArrElems.eq_def]

theorem parseObjFields_succ_eq (f : Nat) (cs : List Char) :
    parseObjFields (f + 1) cs =
      match cs with
      | [] => none
      | c :: cs2 =>
        if c = '"' then
          match parseStrBody cs2 with
          | none => none
          | some (k, r) =>
            match r with
            | [] => none
            | d :: ds =>
              if d = ':' then
                match parseVal f ds with
                | none => none
                | some (v, r2) =>
                  match r2 with
                  | [] => none
                  | e :: es =>
                    if e = ',' then
                      (parseObjFields f es).map
                        (fun p => (.cons (String.mk k) v p.1, p.2))
                    else if e = '}' then some (.cons (String.mk k) v .nil, es)
                    else none
              else none
        else none := by
  rw [parseObjFields.eq_def]

mutual
/-- Parsing is a left inverse of printing, given fuel at least the size
of the value and a remainder that does not continue a number. -/
theorem parseVal_print (v : Json) : ∀ (fuel : Nat) (rest : List Char),
    jsize v ≤ fuel → noDigitHead rest →
    parseVal fuel (printJson v ++ rest) = some (v, rest) := by
  match v with
  | .null =>
    intro fuel rest hf _hr
    cases fuel with
    | zero => simp [jsize] at hf
    | succ f => exact parseVal_null f rest
  | .bool true =>
    intro fuel rest hf _hr
    cases fuel with
    | zero => simp [jsize] at hf
    | succ f => exact parseVal_true f rest
  | .bool false =>
    intro fuel rest hf _hr
    cases fuel with
    | zero => simp [jsize] at hf
    | succ f => exact parseVal_false f rest
  | .int i =>
    intro fuel rest hf hr
    cases fuel with
    | zero => simp [jsize] at hf
    | succ f =>
      obtain ⟨c, cs, hc, hcd⟩ := printInt_head i
      have hpj : printJson (.int i) = printInt i := rfl
      rw [hpj, hc, List.cons_append]
      have hne : ¬ c = 'n' ∧ ¬ c = 't' ∧ ¬ c = 'f' ∧ ¬ c = '"' ∧ ¬ c = '[' ∧ ¬ c = '{' := by
        rcases hcd with hm | hdig
        · subst hm
          exact ⟨by decide, by decide, by decide, by decide, by decide, by decide⟩
        · exact digit_head_ne c hdig
      rw [parseVal_intStart f c (cs ++ rest) hne.1 hne.2.1 hne.2.2.1 hne.2.2.2.1
        hne.2.2.2.2.1 hne.2.2.2.2.2]
      rw [← List.cons_append, ← hc, parseIntChars_printInt i rest hr]
      rfl
  | .str s =>
    intro fuel rest hf _hr
    cases fuel with
    | zero => simp [jsize] at hf
    | succ f =>
      have hpj : printJson (.str s) ++ rest = '"' :: (escapeStr s.data ++ '"' :: rest) := by
        show ('"' :: (escapeStr s.data ++ ['"'])) ++ rest = _
        simp
      rw [hpj, parseVal_quote, parseStrBody_escape s.data rest]
      rfl
  | .arr .nil =>
    intro fuel rest hf _hr
    cases fuel with
    | zero => simp [jsize] at hf
    | succ f => exact parseVal_arrNil f rest
  | .arr (.cons v1 t) =>
    intro fuel rest hf _hr
    cases fuel with
    | zero => simp [jsize] at hf
    | succ f =>
      obtain ⟨c, cs, hc, hne⟩ := printJson_head v1
      have hshape : printJson (.arr (.cons v1 t)) ++ rest =
          '[' :: (c :: (cs ++ (printArrTail t ++ ']' :: rest))) := by
        show ('[' :: ((printJson v1 ++ printArrTail t) ++ [']'])) ++ rest = _
        rw [hc]
        simp
      rw [hshape, parseVal_arrCons f c _ hne]
      have harr : c :: (cs ++ (printArrTail t ++ ']' :: rest)) =
          printArrCore (.cons v1 t) ++ ']' :: rest := by
        show _ = (printJson v1 ++ printArrTail t) ++ ']' :: rest
        rw [hc]
        simp
      rw [harr]
      rw [parseArrElems_print (.cons v1 t) f rest (fun h => JsonArr.noConfusion h)
        (by simp only [jsize] at hf; omega)]
      rfl
  | .obj .nil =>
    intro fuel rest hf _hr
    cases fuel with
    | zero => simp [jsize] at hf
    | succ f => exact parseVal_objNil f rest
  | .obj (.cons k v1 t) =>
    intro fuel rest hf _hr
    cases fuel with
    | zero => simp [jsize] at hf
    | succ f =>
      have hshape : printJson (.obj (.cons k v1 t)) ++ rest =
          '{' :: '"' :: (escapeStr k.data ++
            ('"' :: ':' :: (printJson v1 ++ (printObjTail t ++ ('}' :: rest))))) := by
        simp [printJson, printObjCore, printStr]
      rw [hshape, parseVal_objCons f '"' _ (by decide)]
      have hobj : '"' :: (escapeStr k.data ++
            ('"' :: ':' :: (printJson v1 ++ (printObjTail t ++ ('}' :: rest))))) =
          printObjCore (.cons k v1 t) ++ '}' :: rest := by
        simp [printObjCore, printStr]
      rw [hobj]
      rw [parseObjFields_print (.cons k v1 t) f rest (fun h => JsonObj.noConfusion h)
        (by simp only [jsize] at hf; omega)]
      rfl

theorem parseArrElems_print (a : JsonArr) : ∀ (fuel : Nat) (rest : List Char),
    a ≠ .nil → asize a ≤ fuel →
    parseArrElems fuel (printArrCore a ++ ']' :: rest) = some (a, rest) := by
  match a with
  | .nil =>
    intro fuel rest hne _
    exact absurd rfl hne
  | .cons v t =>
    intro fuel rest _ hsz
    cases fuel with
    | zero => simp [asize] at hsz
    | succ f =>
      have hrest2 : noDigitHead (printArrTail t ++ ']' :: rest) := by
        cases t with
        | nil => exact noDigitHead_cons ']' (by decide) rest
        | cons v2 t2 => exact noDigitHead_cons ',' (by decide) _
      have hv := parseVal_print v f (printArrTail t ++ ']' :: rest)
        (by simp only [asize] at hsz; omega) hrest2
      have hsh : printArrCore (.cons v t) ++ ']' :: rest =
          printJson v ++ (printArrTail t ++ ']' :: rest) := by
        show (printJson v ++ printArrTail t) ++ ']' :: rest = _
        rw [List.append_assoc]
      rw [parseArrElems_succ_eq, hsh, hv]
      cases t with
      | nil => simp [printArrTail]
      | cons v2 t2 =>
        rw [show printArrTail (JsonArr.cons v2 t2) ++ ']' :: rest =
          ',' :: (printArrCore (JsonArr.cons v2 t2) ++ ']' :: rest) from by
            simp [printArrTail, printArrCore]]
        simp only [if_true]
        rw [parseArrElems_print (.cons v2 t2) f rest (fun h => JsonArr.noConfusion h)
          (by simp only [asize] at hsz ⊢; omega)]
        rfl

theorem parseObjFields_print (o : JsonObj) : ∀ (fuel : Nat) (rest : List Char),
    o ≠ .nil → osize o ≤ fuel →
    parseObjFields fuel (printObjCore o ++ '}' :: rest) = some (o, rest) := by
  match o with
  | .nil =>
    intro fuel rest hne _
    exact absurd rfl hne
  | .cons k v t =>
    intro fuel rest _ hsz
    cases fuel with
    | zero => simp [osize] at hsz
    | succ f =>
      have hrest2 : noDigitHead (printObjTail t ++ '}' :: rest) := by
        cases t with
        | nil => exact noDigitHead_cons '}' (by decide) rest
        | cons k2 v2 t2 => exact noDigitHead_cons ',' (by decide) _
      have hv := parseVal_print v f (printObjTail t ++ '}' :: rest)
        (by simp only [osize] at hsz; omega) hrest2
      have hsh : printObjCore (.cons k v t) ++ '}' :: rest =
          '"' :: (escapeStr k.data ++
            '"' :: (':' :: (printJson v ++ (printObjTail t ++ '}' :: rest)))) := by
        simp [printObjCore, printStr]
      rw [parseObjFields_succ_eq, hsh]
      simp only [if_true]
      rw [parseStrBody_escape k.data (':' :: (printJson v ++ (printObjTail t ++ '}' :: rest)))]
      simp only [if_true]
      rw [hv]
      simp only []
      have hmk : String.mk k.data = k := rfl
      cases t with
      | nil =>
        simp [printObjTail, hmk]
      | cons k2 v2 t2 =>
        rw [show printObjTail (JsonObj.cons k2 v2 t2) ++ '}' :: rest =
          ',' :: (printObjCore (JsonObj.cons k2 v2 t2) ++ '}' :: rest) from by
            simp [printObjTail, printObjCore]]
        simp only [if_true]
        rw [parseObjFields_print (.cons k2 v2 t2) f rest (fun h => JsonObj.noConfusion h)
          (by simp only [osize] at hsz ⊢; omega)]
        rw [hmk]
        rfl
end

mutual
/-- The fuel a printed value needs is bounded by its printed length. -/
theorem jsize_le_len (v : Json) : jsize v ≤ (printJson v).length := by
  match v with
  | .null => decide
  | .bool true => decide
  | .bool false => decide
  | .int i =>
    obtain ⟨c, cs, hc, _⟩ := printInt_head i
    have hp : printJson (.int i) = printInt i := rfl
    rw [hp, hc]
    simp [jsize]
  | .str s =>
    have hp : printJson (.str s) = '"' :: (escapeStr s.data ++ ['"']) := rfl
    rw [hp]
    simp [jsize]
  | .arr a =>
    have hp : printJson (.arr a) = '[' :: (printArrCore a ++ [']']) := rfl
    rw [hp]
    have h1 := asize_le_core a
    simp only [jsize, List.length_cons, List.length_append, List.length_nil]
    omega
  | .obj o =>
    have hp : printJson (.obj o) = '{' :: (printObjCore o ++ ['}']) := rfl
    rw [hp]
    have h1 := osize_le_core o
    simp only [jsize, List.length_cons, List.length_append, List.length_nil]
    omega

theorem asize_le_core (a : JsonArr) : asize a ≤ (printArrCore a).length + 1 := by
  match a with
  | .nil => simp [asize]
  | .cons v t =>
    have h1 := jsize_le_len v
    have h2 := asize_le_tail t
    have hp : printArrCore (.cons v t) = printJson v ++ printArrTail t := rfl
    rw [hp]
    simp only [asize, List.length_append]
    omega

theorem asize_le_tail (a : JsonArr) : asize a ≤ (printArrTail a).length := by
  match a with
  | .nil => simp [asize, printArrTail]
  | .cons v t =>
    have h1 := jsize_le_len v
    have h2 := asize_le_tail t
    have hp : printArrTail (.cons v t) = ',' :: (printJson v ++ printArrTail t) := rfl
    rw [hp]
    simp only [asize, List.length_cons, List.length_append]
    omega

theorem osize_le_core (o : JsonObj) : osize o ≤ (printObjCore o).length + 1 := by
  match o with
  | .nil => simp [osize]
  | .cons k v t =>
    have h1 := jsize_le_len v
    have h2 := osize_le_tail t
    have hp : printObjCore (.cons k v t) =
        printStr k ++ ':' :: printJson v ++ printObjTail t := by
      simp [printObjCore]
    rw [hp]
    simp only [osize, List.length_append, List.length_cons]
    omega

theorem osize_le_tail (o : JsonObj) : osize o ≤ (printObjTail o).length := by
  match o with
  | .nil => simp [osize, printObjTail]
  | .cons k v t =>
    have h1 := jsize_le_len v
    have h2 := osize_le_tail t
    have hp : printObjTail (.cons k v t) =
        ',' :: printStr k ++ ':' :: printJson v ++ printObjTail t := by
      simp [printObjTail]
    rw [hp]
    simp only [osize, List.length_cons, List.length_append]
    omega
end

/-- A printed document parses back to exactly the printed value. -/
theorem parseJsonText_print (v : Json) : parseJsonText (printJson v) = some v := by
  have h := parseVal_print v ((printJson v).length + 1) []
    (le_trans (jsize_le_len v) (by omega)) noDigitHead_nil
  rw [List.append_nil] at h
  unfold parseJsonText
  rw [h]

/-- Claim C9: persisting the context memory with `save_context` and
reloading it with `load_context` from the same store yields an equal
mapping — the stored JSON document parses back to exactly the saved
key-value object, keys in their original order. -/
theorem context_save_load_round_trip (mem : JsonObj) (st : DMState) :
    loadContext (saveContext mem st) = .obj mem := by
  unfold saveContext loadContext
  simp only []
  rw [parseJsonText_print (.obj mem)]

end Metoolok
